import Mathlib

/-!
Verification of the vault-state-plugin base/delta snapshot store.

The definitions below are a shallow embedding of the plugin source:
* `src/unnamed/part_001` — the final base/delta iteration
  (`rebuildCurrentState`, `createDelta`, `createBase`, `maybeConsolidate`,
  `buildFileState`, `compileIgnorePatterns`, `runDeltaIfNeeded`,
  `hashContent`), and
* `src/src/main.ts` — the earlier snapshot-only variant, embedded where the
  two variants diverge (its `hashContent` normalizes content before hashing).

JavaScript `Record<string, T>` objects are modelled as association lists with
JS property semantics: object keys are unique, assignment overwrites the
existing key in place and appends a fresh key at the end, `delete` removes
the key, and property reads return the entry's value (or `undefined`,
modelled as `none`).  Content digests (`crypto.createHash("sha1")`) are
modelled as an abstract function parameter `sha1 : String → String`: every
theorem about hashing is about which input string reaches the digest.
-/

/-- `FileState` of `src/unnamed/part_001` (no `name` field); `hash` is the
optional content digest. -/
structure FileState where
  path : String
  mtime : Int
  size : Int
  hash : Option String
deriving DecidableEq, Repr

/-- A state mapping: the JS object `Record<string, FileState>`, as an
insertion-ordered association list with unique keys. -/
abbrev StateMap : Type := List (String × FileState)

/-- `BaseSnapshot` of `src/unnamed/part_001`. -/
structure BaseSnapshot where
  createdAt : String
  files : StateMap
deriving DecidableEq

/-- `DeltaSnapshot` of `src/unnamed/part_001`. -/
structure DeltaSnapshot where
  createdAt : String
  added : List FileState
  modified : List FileState
  removed : List String
deriving DecidableEq

/-- JS object property write `m[k] = v`: overwrite the existing key in
place, or append a fresh key at the end. -/
def upsert : StateMap → String → FileState → StateMap
  | [], k, v => [(k, v)]
  | p :: m, k, v => if p.1 = k then (k, v) :: m else p :: upsert m k v

/-- JS `delete m[k]`. -/
def removeKey : StateMap → String → StateMap
  | [], _ => []
  | p :: m, k => if p.1 = k then removeKey m k else p :: removeKey m k

/-- JS property read `m[k]`, with `undefined` as `none`. -/
def lookup : StateMap → String → Option FileState
  | [], _ => none
  | p :: m, k => if p.1 = k then some p.2 else lookup m k

theorem lookup_upsert (m : StateMap) (k k' : String) (v : FileState) :
    lookup (upsert m k v) k' = if k' = k then some v else lookup m k' := by
  induction m with
  | nil =>
    by_cases h : k' = k
    · simp [upsert, lookup, h]
    · simp [upsert, lookup, h, Ne.symm h]
  | cons p m ih =>
    by_cases hp : p.1 = k
    · by_cases h : k' = k
      · simp [upsert, lookup, hp, h]
      · simp [upsert, lookup, hp, h, Ne.symm h]
    · by_cases h2 : p.1 = k'
      · have h3 : ¬ k' = k := fun hh => hp (by rw [h2, hh])
        simp [upsert, lookup, hp, h2, h3]
      · simp [upsert, lookup, hp, h2, ih]

theorem lookup_removeKey (m : StateMap) (k k' : String) :
    lookup (removeKey m k) k' = if k' = k then none else lookup m k' := by
  induction m with
  | nil => simp [removeKey, lookup]
  | cons p m ih =>
    by_cases hp : p.1 = k
    · by_cases h : k' = k
      · subst h
        simp [removeKey, hp, ih]
      · simp [removeKey, lookup, hp, ih, h, Ne.symm h]
    · by_cases h2 : p.1 = k'
      · have h3 : ¬ k' = k := fun hh => hp (by rw [h2, hh])
        simp [removeKey, lookup, hp, h2, h3, ih]
      · simp [removeKey, lookup, hp, h2, ih]

/-- The `added`/`modified` upsert loops of `rebuildCurrentState`
(`src/unnamed/part_001` lines 206-207): `state[a.path] = a` per entry. -/
def applyUpserts (entries : List FileState) (s : StateMap) : StateMap :=
  entries.foldl (fun acc fs => upsert acc fs.path fs) s

/-- The `removed` loop of `rebuildCurrentState` (line 208):
`delete state[r]` per path. -/
def applyRemovals (ps : List String) (s : StateMap) : StateMap :=
  ps.foldl (fun acc r => removeKey acc r) s

/-- One iteration of the delta-replay loop of `rebuildCurrentState`
(lines 202-209): `added` upserts, then `modified` upserts, then `removed`
deletions. -/
def applyDelta (s : StateMap) (d : DeltaSnapshot) : StateMap :=
  applyRemovals d.removed (applyUpserts d.modified (applyUpserts d.added s))

/-- The full replay loop of `rebuildCurrentState`: fold the ordered delta
list over a copy of the base mapping (`const state = { ...base.files }`). -/
def rebuildFrom (base : StateMap) (ds : List DeltaSnapshot) : StateMap :=
  ds.foldl applyDelta base

/-- The last entry of `entries` whose `path` is `k` (later upserts of the
same key win). -/
def lastVal : List FileState → String → Option FileState
  | [], _ => none
  | fs :: rest, k =>
    match lastVal rest k with
    | some v => some v
    | none => if fs.path = k then some fs else none

theorem lookup_applyUpserts (entries : List FileState) (s : StateMap) (k : String) :
    lookup (applyUpserts entries s) k =
      match lastVal entries k with
      | some v => some v
      | none => lookup s k := by
  induction entries generalizing s with
  | nil => simp [applyUpserts, lastVal]
  | cons fs rest ih =>
    simp only [applyUpserts, List.foldl_cons] at *
    rw [ih]
    cases hl : lastVal rest k with
    | some v => simp [lastVal, hl]
    | none =>
      simp only [lastVal, hl, lookup_upsert]
      by_cases h : k = fs.path
      · simp [h]
      · simp [h, Ne.symm h]

theorem lookup_applyRemovals (ps : List String) (s : StateMap) (k : String) :
    lookup (applyRemovals ps s) k = if k ∈ ps then none else lookup s k := by
  induction ps generalizing s with
  | nil => simp [applyRemovals]
  | cons r rest ih =>
    simp only [applyRemovals, List.foldl_cons] at *
    rw [ih]
    by_cases h1 : k ∈ rest
    · simp [h1]
    · by_cases h2 : k = r
      · simp [h1, h2, lookup_removeKey]
      · simp [h1, h2, lookup_removeKey]

/-- The net effect of a single delta on one key: `some r` when the delta
touches the key (forcing the result to `r` regardless of the incoming
state), `none` when the delta leaves the key alone. -/
def deltaEffect (d : DeltaSnapshot) (k : String) : Option (Option FileState) :=
  if k ∈ d.removed then some none
  else
    match lastVal d.modified k with
    | some v => some (some v)
    | none =>
      match lastVal d.added k with
      | some v => some (some v)
      | none => none

theorem lookup_applyDelta (d : DeltaSnapshot) (s : StateMap) (k : String) :
    lookup (applyDelta s d) k = (deltaEffect d k).getD (lookup s k) := by
  unfold applyDelta deltaEffect
  rw [lookup_applyRemovals]
  by_cases h : k ∈ d.removed
  · simp [h]
  · simp only [h, if_false]
    rw [lookup_applyUpserts]
    cases lastVal d.modified k with
    | some v => simp
    | none =>
      rw [lookup_applyUpserts]
      cases lastVal d.added k with
      | some v => simp
      | none => simp

/-- The net effect of an ordered delta list on one key: the effect of the
last delta that touches it, if any. -/
def deltasEffect : List DeltaSnapshot → String → Option (Option FileState)
  | [], _ => none
  | d :: ds, k =>
    match deltasEffect ds k with
    | some r => some r
    | none => deltaEffect d k

theorem lookup_rebuildFrom (base : StateMap) (ds : List DeltaSnapshot) (k : String) :
    lookup (rebuildFrom base ds) k = (deltasEffect ds k).getD (lookup base k) := by
  induction ds generalizing base with
  | nil => simp [rebuildFrom, deltasEffect]
  | cons d ds ih =>
    simp only [rebuildFrom, List.foldl_cons] at *
    rw [ih, lookup_applyDelta]
    cases hd : deltasEffect ds k with
    | some r => simp [deltasEffect, hd]
    | none => simp [deltasEffect, hd]

/-- Replaying the same ordered delta list a second time changes nothing:
each delta forces the keys it touches to values independent of the
incoming state, and passes untouched keys through. -/
theorem rebuildFrom_idem (base : StateMap) (ds : List DeltaSnapshot) (k : String) :
    lookup (rebuildFrom (rebuildFrom base ds) ds) k = lookup (rebuildFrom base ds) k := by
  simp only [lookup_rebuildFrom]
  cases deltasEffect ds k <;> simp

/-- Plain functional mappings, used to state the specification's
reconstruction algorithm independently of the association-list embedding. -/
def FunMap : Type := String → Option FileState

/-- Specification-side upsert on a functional mapping. -/
def fupsert (m : FunMap) (fs : FileState) : FunMap :=
  fun k => if k = fs.path then some fs else m k

/-- Specification-side deletion on a functional mapping. -/
def fdelete (m : FunMap) (r : String) : FunMap :=
  fun k => if k = r then none else m k

/-- One delta applied as the specification words it: first upsert every
entry of the `added` list, then every entry of the `modified` list, then
delete every path of the `removed` list. -/
def applyDeltaSpec (m : FunMap) (d : DeltaSnapshot) : FunMap :=
  d.removed.foldl fdelete (d.modified.foldl fupsert (d.added.foldl fupsert m))

/-- The specification's reconstruction: start from the base mapping and
apply each delta in order. -/
def reconstructSpec (base : FunMap) (ds : List DeltaSnapshot) : FunMap :=
  ds.foldl applyDeltaSpec base

theorem foldl_fupsert_eq (entries : List FileState) (m : FunMap) (k : String) :
    (entries.foldl fupsert m) k =
      match lastVal entries k with
      | some v => some v
      | none => m k := by
  induction entries generalizing m with
  | nil => simp [lastVal]
  | cons fs rest ih =>
    simp only [List.foldl_cons]
    rw [ih]
    cases hl : lastVal rest k with
    | some v => simp [lastVal, hl]
    | none =>
      simp only [lastVal, hl, fupsert]
      by_cases h : k = fs.path
      · simp [h]
      · simp [h, Ne.symm h]

theorem foldl_fdelete_eq (ps : List String) (m : FunMap) (k : String) :
    (ps.foldl fdelete m) k = if k ∈ ps then none else m k := by
  induction ps generalizing m with
  | nil => simp
  | cons r rest ih =>
    simp only [List.foldl_cons]
    rw [ih]
    by_cases h1 : k ∈ rest
    · simp [h1]
    · by_cases h2 : k = r
      · simp [fdelete, h1, h2]
      · simp [fdelete, h1, h2]

theorem applyDeltaSpec_eq (m : FunMap) (d : DeltaSnapshot) (k : String) :
    applyDeltaSpec m d k = (deltaEffect d k).getD (m k) := by
  unfold applyDeltaSpec deltaEffect
  rw [foldl_fdelete_eq]
  by_cases h : k ∈ d.removed
  · simp [h]
  · simp only [h, if_false]
    rw [foldl_fupsert_eq]
    cases lastVal d.modified k with
    | some v => simp
    | none =>
      rw [foldl_fupsert_eq]
      cases lastVal d.added k with
      | some v => simp
      | none => simp

theorem reconstructSpec_eq (base : FunMap) (ds : List DeltaSnapshot) (k : String) :
    reconstructSpec base ds k = (deltasEffect ds k).getD (base k) := by
  induction ds generalizing base with
  | nil => simp [reconstructSpec, deltasEffect]
  | cons d ds ih =>
    simp only [reconstructSpec, List.foldl_cons] at *
    rw [ih, applyDeltaSpec_eq]
    cases hd : deltasEffect ds k with
    | some r => simp [deltasEffect, hd]
    | none => simp [deltasEffect, hd]

/-- Stable insertion: `a` goes immediately before the first element whose
key is not smaller. -/
def insByKey {α : Type} (key : α → Int) (a : α) : List α → List α
  | [] => [a]
  | b :: l => if key a ≤ key b then a :: b :: l else b :: insByKey key a l

/-- JS `Array.prototype.sort` with comparator `(a, b) => key a - key b`:
a stable ascending sort by the integer key (ECMAScript guarantees sort
stability, so elements with equal keys keep their input order). -/
def stableSortBy {α : Type} (key : α → Int) (l : List α) : List α :=
  l.foldr (insByKey key) []

theorem mem_insByKey {α : Type} (key : α → Int) (a x : α) (l : List α) :
    x ∈ insByKey key a l ↔ x = a ∨ x ∈ l := by
  induction l with
  | nil => simp [insByKey]
  | cons b l ih =>
    by_cases h : key a ≤ key b
    · simp [insByKey, h]
    · simp [insByKey, h, ih]
      tauto

theorem pairwise_insByKey {α : Type} (key : α → Int) (a : α) (l : List α)
    (h : l.Pairwise (fun x y => key x ≤ key y)) :
    (insByKey key a l).Pairwise (fun x y => key x ≤ key y) := by
  induction l with
  | nil => simp [insByKey]
  | cons b l ih =>
    rcases List.pairwise_cons.mp h with ⟨hb, hl⟩
    by_cases hab : key a ≤ key b
    · rw [insByKey, if_pos hab]
      refine List.pairwise_cons.mpr ⟨?_, h⟩
      intro y hy
      rcases List.mem_cons.mp hy with rfl | hy2
      · exact hab
      · exact le_trans hab (hb y hy2)
    · rw [insByKey, if_neg hab]
      refine List.pairwise_cons.mpr ⟨?_, ih hl⟩
      intro y hy
      rcases (mem_insByKey key a y l).mp hy with rfl | hy2
      · exact le_of_lt (lt_of_not_le hab)
      · exact hb y hy2

theorem sorted_stableSortBy {α : Type} (key : α → Int) (l : List α) :
    (stableSortBy key l).Pairwise (fun x y => key x ≤ key y) := by
  induction l with
  | nil => simp [stableSortBy]
  | cons a l ih => exact pairwise_insByKey key a _ ih

theorem filter_insByKey_eq {α : Type} (key : α → Int) (t : Int) (a : α) (l : List α)
    (ha : key a = t) :
    (insByKey key a l).filter (fun x => key x = t) =
      a :: l.filter (fun x => key x = t) := by
  induction l with
  | nil => simp [insByKey, ha]
  | cons b l ih =>
    by_cases hab : key a ≤ key b
    · rw [insByKey, if_pos hab]
      simp [ha]
    · have hbt : ¬ key b = t := fun hbt => hab ((ha.trans hbt.symm).le)
      rw [insByKey, if_neg hab]
      simp [hbt, ih]

theorem filter_insByKey_ne {α : Type} (key : α → Int) (t : Int) (a : α) (l : List α)
    (ha : ¬ key a = t) :
    (insByKey key a l).filter (fun x => key x = t) =
      l.filter (fun x => key x = t) := by
  induction l with
  | nil => simp [insByKey, ha]
  | cons b l ih =>
    by_cases hab : key a ≤ key b
    · rw [insByKey, if_pos hab]
      simp [ha]
    · rw [insByKey, if_neg hab]
      by_cases hb : key b = t <;> simp [hb, ih]

/-- Stability: for any key value, the equal-keyed elements come out of the
sort in exactly their input order. -/
theorem filter_stableSortBy {α : Type} (key : α → Int) (t : Int) (l : List α) :
    (stableSortBy key l).filter (fun x => key x = t) =
      l.filter (fun x => key x = t) := by
  induction l with
  | nil => rfl
  | cons a l ih =>
    show (insByKey key a (stableSortBy key l)).filter (fun x => key x = t) = _
    by_cases ha : key a = t
    · rw [filter_insByKey_eq key t a _ ha, ih]
      simp [ha]
    · rw [filter_insByKey_ne key t a _ ha, ih]
      simp [ha]

theorem perm_insByKey {α : Type} (key : α → Int) (a : α) (l : List α) :
    List.Perm (insByKey key a l) (a :: l) := by
  induction l with
  | nil => exact List.Perm.refl _
  | cons b l ih =>
    by_cases hab : key a ≤ key b
    · rw [insByKey, if_pos hab]
    · rw [insByKey, if_neg hab]
      exact List.Perm.trans (List.Perm.cons b ih) (List.Perm.swap a b l)

theorem perm_stableSortBy {α : Type} (key : α → Int) (l : List α) :
    List.Perm (stableSortBy key l) l := by
  induction l with
  | nil => exact List.Perm.refl _
  | cons a l ih =>
    exact List.Perm.trans (perm_insByKey key a _) (List.Perm.cons a ih)

/-- A stored delta artifact as `rebuildCurrentState` sees it: the vault
file's name and modification time, and its parsed `DeltaSnapshot`
content. -/
structure DeltaFile where
  name : String
  mtime : Int
  delta : DeltaSnapshot
deriving DecidableEq

/-- `rebuildCurrentState` (`src/unnamed/part_001` lines 187-212) over a
well-formed store: sort the delta files ascending by file mtime (JS stable
sort, comparator `(a, b) => a.stat.mtime - b.stat.mtime`), then replay
their parsed deltas in that order over a copy of the base mapping. -/
def rebuildCurrentState (base : BaseSnapshot) (deltaFiles : List DeltaFile) : StateMap :=
  rebuildFrom base.files ((stableSortBy (fun f => f.mtime) deltaFiles).map (fun f => f.delta))

/-- `CONSOLIDATION_THRESHOLD` (`src/unnamed/part_001` line 34). -/
def CONSOLIDATION_THRESHOLD : Nat := 30

/-- `maybeConsolidate` (`src/unnamed/part_001` lines 151-181) as a store
transformation: when the accumulated delta count has reached the
threshold, the base is replaced by the fully rebuilt state (fresh
`createdAt`) and every delta file is deleted; below the threshold the
store is untouched. -/
def maybeConsolidate (base : BaseSnapshot) (deltaFiles : List DeltaFile) (now : String) :
    BaseSnapshot × List DeltaFile :=
  if deltaFiles.length < CONSOLIDATION_THRESHOLD then (base, deltaFiles)
  else ({ createdAt := now, files := rebuildCurrentState base deltaFiles }, [])

/-- A storage operation issued by `maybeConsolidate`. -/
inductive StoreOp where
  | writeBase (b : BaseSnapshot)
  | deleteFile (name : String)
deriving DecidableEq

/-- The storage operations `maybeConsolidate` issues, in program order:
first the new base write (`vault.modify` or `vault.create`), then one
`vault.delete` per delta file. -/
def maybeConsolidateOps (base : BaseSnapshot) (deltaFiles : List DeltaFile) (now : String) :
    List StoreOp :=
  if deltaFiles.length < CONSOLIDATION_THRESHOLD then []
  else
    StoreOp.writeBase { createdAt := now, files := rebuildCurrentState base deltaFiles } ::
      deltaFiles.map (fun f => StoreOp.deleteFile f.name)

/-- One token of a compiled ignore pattern: the body of the anchored
regular expression `^...` that `compileIgnorePatterns` builds.  Escaped
metacharacters are literal tokens; each `*` of a user pattern became
`.*` (`anySeq`). -/
inductive Tok where
  | lit (c : Char)
  | anySeq
deriving DecidableEq

/-- `RegExp.test` for an `^`-anchored pattern: does the token list match
some prefix of the input? (`.*` may consume any run of characters, so it
tries every remaining tail). -/
def matchesFrom : List Tok → List Char → Bool
  | [], _ => true
  | Tok.lit _ :: _, [] => false
  | Tok.lit c :: ts, x :: xs => if c = x then matchesFrom ts xs else false
  | Tok.anySeq :: ts, s => s.tails.any (fun rest => matchesFrom ts rest)

/-- The always-present snapshot-folder pattern
(`src/unnamed/part_001` lines 248-252): the folder path matched literally
as a path prefix.  (The source's escape step turns the regex
metacharacters a vault path can contain into literals.) -/
def folderPattern (folder : String) : List Tok :=
  folder.data.map Tok.lit

/-- One user pattern compiled (lines 259-264): metacharacters are escaped
to literals and each `*` becomes `.*`. -/
def userPattern (s : List Char) : List Tok :=
  s.map (fun c => if c = '*' then Tok.anySeq else Tok.lit c)

/-- JS `String.prototype.trim`: drop leading and trailing whitespace. -/
def trimChars (s : List Char) : List Char :=
  ((s.dropWhile Char.isWhitespace).reverse.dropWhile Char.isWhitespace).reverse

/-- JS `String.prototype.split(",")`. -/
def splitOnComma : List Char → List (List Char)
  | [] => [[]]
  | c :: rest =>
    if c = ',' then [] :: splitOnComma rest
    else
      match splitOnComma rest with
      | [] => [[c]]
      | seg :: segs => (c :: seg) :: segs

/-- The user-pattern pipeline of `compileIgnorePatterns` (lines 254-267):
split on commas, trim each segment, discard falsy (empty) segments,
compile the rest. -/
def userPatterns (ignoredFolders : String) : List (List Tok) :=
  ((((splitOnComma ignoredFolders.data).map trimChars).filter
      (fun seg => ¬ seg = [])).map userPattern)

/-- `VaultStateSettings` (`src/unnamed/part_001` lines 24-27). -/
structure VaultStateSettings where
  snapshotFolder : String
  ignoredFolders : String
deriving DecidableEq

/-- `compileIgnorePatterns` (lines 245-270): the snapshot-folder prefix
pattern whenever the folder setting is non-empty (JS truthiness), then
the compiled user patterns whenever the setting string is non-empty. -/
def compileIgnorePatterns (settings : VaultStateSettings) : List (List Tok) :=
  (if ¬ settings.snapshotFolder = "" then [folderPattern settings.snapshotFolder] else []) ++
    (if ¬ settings.ignoredFolders = "" then userPatterns settings.ignoredFolders else [])

/-- `isIgnored` (lines 272-274): some compiled pattern matches. -/
def isIgnored (patterns : List (List Tok)) (path : String) : Bool :=
  patterns.any (fun p => matchesFrom p path.data)

/-- Parsed content of a vault file as the plugin consumes it: plain text,
or an artifact whose JSON parses as a base or delta snapshot; `none`
models a failing `vault.read`.  (Artifact files are only ever read back
through `JSON.parse`; their raw JSON text is not needed by any flow the
theorems cover, because artifacts live in the always-ignored snapshot
folder.) -/
inductive FData where
  | text (s : String)
  | baseArt (b : BaseSnapshot)
  | deltaArt (d : DeltaSnapshot)
deriving DecidableEq

/-- A vault file: the `TFile` fields the plugin uses plus what
`vault.read` would return for it. -/
structure VFile where
  path : String
  name : String
  extension : String
  mtime : Int
  size : Int
  read : Option FData
deriving DecidableEq

/-- `TEXT_EXTENSIONS` (`src/unnamed/part_001` lines 219-222). -/
def TEXT_EXTENSIONS : List String :=
  ["md", "txt", "csv", "json", "js", "ts", "css", "html", "yaml", "yml"]

/-- `hashContent` of `src/unnamed/part_001` (lines 298-300): the digest of
the content exactly as read — no normalization step. -/
def hashContent (sha1 : String → String) (content : String) : String :=
  sha1 content

/-- `buildFileState` (lines 218-239): hash only text extensions and only
when the read succeeds (`catch {}` swallows failures); the spread
`...(hash ? { hash } : {})` keeps the field only for truthy (defined,
non-empty) digests. -/
def buildFileState (sha1 : String → String) (f : VFile) : FileState :=
  let hash : Option String :=
    if f.extension ∈ TEXT_EXTENSIONS then
      match f.read with
      | some (FData.text c) => some (hashContent sha1 c)
      | _ => none
    else none
  { path := f.path
    mtime := f.mtime
    size := f.size
    hash :=
      match hash with
      | some h => if h = "" then none else some h
      | none => none }

/-- JS `content.replace(/\r\n/g, "\n")`: left-to-right, non-overlapping. -/
def replaceCRLF : List Char → List Char
  | [] => []
  | '\r' :: '\n' :: rest => '\n' :: replaceCRLF rest
  | c :: rest => c :: replaceCRLF rest

/-- JS `.replace(/﻿/g, "")`: strip every BOM character. -/
def removeBOM (s : List Char) : List Char :=
  s.filter (fun c => ¬ c = '﻿')

/-- JS `String.prototype.trimEnd`. -/
def trimEnd (s : List Char) : List Char :=
  (s.reverse.dropWhile Char.isWhitespace).reverse

/-- `normalizeContent` (`src/src/main.ts` lines 172-178; the identical
function also sits unused in `src/unnamed/part_001` lines 290-296):
CRLF → LF, BOM removal, Unicode NFC normalization, `trimEnd`.  NFC is
Unicode-table driven, so it is an explicit function parameter `nfc`; the
real NFC is the identity on ASCII-only strings. -/
def normalizeContent (nfc : String → String) (content : String) : String :=
  String.mk (trimEnd (nfc (String.mk (removeBOM (replaceCRLF content.data)))).data)

/-- `hashContent` of `src/src/main.ts` (lines 180-183): the snapshot-only
variant normalizes the content before hashing. -/
def hashContentMain (sha1 nfc : String → String) (content : String) : String :=
  sha1 (normalizeContent nfc content)

/-- `FileState` of `src/src/main.ts` (lines 5-11; it also has `name`). -/
structure MFileState where
  path : String
  name : String
  mtime : Int
  size : Int
  hash : Option String
deriving DecidableEq

/-- The per-file body of `saveSnapshot` in `src/src/main.ts`
(lines 79-104): hash for text extensions when the read succeeds;
`if (hash) fileState.hash = hash` keeps only truthy digests. -/
def buildFileStateMain (sha1 nfc : String → String) (f : VFile) : MFileState :=
  let hash : Option String :=
    if f.extension ∈ TEXT_EXTENSIONS then
      match f.read with
      | some (FData.text c) => some (hashContentMain sha1 nfc c)
      | _ => none
    else none
  { path := f.path
    name := f.name
    mtime := f.mtime
    size := f.size
    hash :=
      match hash with
      | some h => if h = "" then none else some h
      | none => none }

/-- `createBase` (`src/unnamed/part_001` lines 80-98): the state of every
non-ignored vault file, keyed by path, in enumeration order. -/
def createBase (patterns : List (List Tok)) (sha1 : String → String) (now : String)
    (files : List VFile) : BaseSnapshot :=
  { createdAt := now
    files := files.foldl
      (fun acc f =>
        if isIgnored patterns f.path then acc
        else upsert acc f.path (buildFileState sha1 f))
      [] }

/-- The live-file `Map<string, TFile>` of `createDelta` (lines 108-111). -/
abbrev LiveMap : Type := List (String × VFile)

/-- JS `Map.set`: overwrite in place or append. -/
def upsertLive : LiveMap → String → VFile → LiveMap
  | [], k, v => [(k, v)]
  | p :: m, k, v => if p.1 = k then (k, v) :: m else p :: upsertLive m k v

/-- JS `Map.get`/`Map.has`. -/
def lookupLive : LiveMap → String → Option VFile
  | [], _ => none
  | p :: m, k => if p.1 = k then some p.2 else lookupLive m k

/-- `currentMap` of `createDelta`: the non-ignored live files keyed by
path. -/
def currentMapOf (patterns : List (List Tok)) (files : List VFile) : LiveMap :=
  files.foldl
    (fun m f => if isIgnored patterns f.path then m else upsertLive m f.path f) []

/-- The `removed` accumulation of `createDelta` (lines 117-119): previous
paths absent from the live map, in previous-state key order. -/
def removedOf (patterns : List (List Tok)) (previousState : StateMap)
    (files : List VFile) : List String :=
  (previousState.map (fun p => p.1)).filter
    (fun path => (lookupLive (currentMapOf patterns files) path).isNone)

/-- The `added` accumulation of `createDelta` (lines 121-124): live files
with no previous entry, in live-map order. -/
def addedOf (patterns : List (List Tok)) (sha1 : String → String)
    (previousState : StateMap) (files : List VFile) : List FileState :=
  (currentMapOf patterns files).filterMap
    (fun p =>
      if (lookup previousState p.2.path).isNone then some (buildFileState sha1 p.2)
      else none)

/-- The `modified` accumulation of `createDelta` (lines 125-127): live
files whose recorded mtime differs, in live-map order. -/
def modifiedOf (patterns : List (List Tok)) (sha1 : String → String)
    (previousState : StateMap) (files : List VFile) : List FileState :=
  (currentMapOf patterns files).filterMap
    (fun p =>
      match lookup previousState p.2.path with
      | some prevFs =>
        if ¬ prevFs.mtime = p.2.mtime then some (buildFileState sha1 p.2) else none
      | none => none)

/-- `createDelta` (lines 104-145) as the delta construction; `none`
models the no-op early return (line 130), where no delta artifact is
persisted. -/
def createDelta (patterns : List (List Tok)) (sha1 : String → String) (now : String)
    (previousState : StateMap) (files : List VFile) : Option DeltaSnapshot :=
  if addedOf patterns sha1 previousState files = [] ∧
      modifiedOf patterns sha1 previousState files = [] ∧
      removedOf patterns previousState files = [] then none
  else some
    { createdAt := now
      added := addedOf patterns sha1 previousState files
      modified := modifiedOf patterns sha1 previousState files
      removed := removedOf patterns previousState files }

/-- `String.prototype.startsWith` at the character level (subject first,
pattern second). -/
def listStarts : List Char → List Char → Bool
  | _, [] => true
  | [], _ :: _ => false
  | c :: cs, p :: ps => if p = c then listStarts cs ps else false

/-- `s.startsWith(pre)`. -/
def strStarts (s pre : String) : Bool := listStarts s.data pre.data

/-- The controller context: the plugin settings plus this run's clock
readings (`getToday()`, `new Date().toISOString()`, the mtime the host
stamps on files written now) and the digest function. -/
structure Ctx where
  settings : VaultStateSettings
  today : String
  now : String
  nowM : Int
  sha1 : String → String

/-- The configured snapshot folder. -/
def Ctx.folder (ctx : Ctx) : String := ctx.settings.snapshotFolder

/-- `normalizePath(folder + "/base.json")`. -/
def basePath (ctx : Ctx) : String := ctx.folder ++ "/base.json"

/-- The basename of today's delta artifact. -/
def deltaName (ctx : Ctx) : String := "delta-" ++ ctx.today ++ ".json"

/-- `normalizePath(folder + "/delta-" + today + ".json")`. -/
def deltaPath (ctx : Ctx) : String := ctx.folder ++ "/" ++ deltaName ctx

/-- The compiled ignore patterns of this configuration. -/
def ctxPatterns (ctx : Ctx) : List (List Tok) := compileIgnorePatterns ctx.settings

/-- A vault: its files (as `getFiles()` enumerates them) and its existing
folders. -/
structure CVault where
  files : List VFile
  folders : List String

/-- `getAbstractFileByPath(p) !== null` for a file path. -/
def hasPath (v : CVault) (p : String) : Bool :=
  v.files.any (fun f => f.path = p)

/-- How many stored files carry the given path (a real vault always has
zero or one). -/
def countPath (v : CVault) (p : String) : Nat :=
  (v.files.filter (fun f => f.path = p)).length

/-- `vault.create(path, json)` for a snapshot artifact. -/
def vcreate (v : CVault) (path name : String) (mtime : Int) (data : FData) : CVault :=
  { v with files := v.files ++ [⟨path, name, "json", mtime, 0, some data⟩] }

/-- `vault.modify(file, json)`: replace the content in place. -/
def vmodify (v : CVault) (path : String) (mtime : Int) (data : FData) : CVault :=
  { v with
    files := v.files.map
      (fun f => if f.path = path then { f with read := some data, mtime := mtime } else f) }

/-- `vault.delete(file)`. -/
def vdelete (v : CVault) (path : String) : CVault :=
  { v with files := v.files.filter (fun f => ¬ f.path = path) }

/-- `ensureFolder` (`src/unnamed/part_001` lines 280-284): creating an
existing folder is a caught no-op. -/
def ensureFolder (v : CVault) (folder : String) : CVault :=
  if folder ∈ v.folders then v else { v with folders := folder :: v.folders }

/-- `vault.modify(getAbstractFileByPath(path) ?? await vault.create(path, ""), json)`:
overwrite the artifact in place, or create it. -/
def writeFile (v : CVault) (path name : String) (mtime : Int) (data : FData) : CVault :=
  if hasPath v path then vmodify v path mtime data
  else vcreate v path name mtime data

/-- The delta-file listing of `rebuildCurrentState` and `maybeConsolidate`
(lines 154-155 and 198-199): files whose path starts with the snapshot
folder and whose name starts with `delta-`. -/
def deltaFilesOf (ctx : Ctx) (v : CVault) : List VFile :=
  v.files.filter (fun f => strStarts f.path ctx.folder && strStarts f.name "delta-")

/-- Read and `JSON.parse` each listed delta file in order; any
non-delta content models a thrown parse/read error. -/
def parseDeltas : List VFile → Option (List DeltaSnapshot)
  | [] => some []
  | f :: rest =>
    match f.read with
    | some (FData.deltaArt d) => (parseDeltas rest).map (fun ds => d :: ds)
    | _ => none

/-- `rebuildCurrentState` (lines 187-212) against the vault: read and
parse `base.json`, sort the delta files by mtime, parse and replay them.
`none` models the thrown error (missing/unparsable artifact), which
aborts the calling operation before it writes anything. -/
def rebuildCurrentStateV (ctx : Ctx) (v : CVault) : Option StateMap :=
  match v.files.find? (fun f => f.path = basePath ctx) with
  | none => none
  | some bf =>
    match bf.read with
    | some (FData.baseArt b) =>
      match parseDeltas (stableSortBy (fun f => f.mtime) (deltaFilesOf ctx v)) with
      | some ds => some (rebuildFrom b.files ds)
      | none => none
    | _ => none

/-- `createBase` (lines 80-98) against the vault. -/
def createBaseV (ctx : Ctx) (v : CVault) : CVault :=
  writeFile v (basePath ctx) "base.json" ctx.nowM
    (FData.baseArt (createBase (ctxPatterns ctx) ctx.sha1 ctx.now v.files))

/-- `createDelta` (lines 104-145) against the vault: rebuild the previous
state, build the delta, persist it unless it is a no-op. -/
def createDeltaV (ctx : Ctx) (v : CVault) : CVault :=
  match rebuildCurrentStateV ctx v with
  | none => v
  | some prev =>
    match createDelta (ctxPatterns ctx) ctx.sha1 ctx.now prev v.files with
    | none => v
    | some d => vcreate v (deltaPath ctx) (deltaName ctx) ctx.nowM (FData.deltaArt d)

/-- `maybeConsolidate` (lines 151-181) against the vault: below the
threshold nothing happens; otherwise write the rebuilt state as the new
base, then delete the delta files listed before the write. -/
def maybeConsolidateV (ctx : Ctx) (v : CVault) : CVault :=
  if (deltaFilesOf ctx v).length < CONSOLIDATION_THRESHOLD then v
  else
    match rebuildCurrentStateV ctx v with
    | none => v
    | some rebuilt =>
      (deltaFilesOf ctx v).foldl (fun acc f => vdelete acc f.path)
        (writeFile v (basePath ctx) "base.json" ctx.nowM
          (FData.baseArt ⟨ctx.now, rebuilt⟩))

/-- `runDeltaIfNeeded` (lines 53-74): the once-per-day controller — bail
out on an empty folder setting, ensure the folder, skip when today's
delta already exists, create the base when absent, otherwise create the
delta and maybe consolidate. -/
def runDeltaIfNeeded (ctx : Ctx) (v : CVault) : CVault :=
  if ctx.folder = "" then v
  else if hasPath (ensureFolder v ctx.folder) (deltaPath ctx) then
    ensureFolder v ctx.folder
  else if ¬ hasPath (ensureFolder v ctx.folder) (basePath ctx) then
    createBaseV ctx (ensureFolder v ctx.folder)
  else maybeConsolidateV ctx (createDeltaV ctx (ensureFolder v ctx.folder))

theorem ensureFolder_files (v : CVault) (f : String) :
    (ensureFolder v f).files = v.files := by
  unfold ensureFolder
  split <;> rfl

theorem hasPath_ensureFolder (v : CVault) (f p : String) :
    hasPath (ensureFolder v f) p = hasPath v p := by
  unfold hasPath
  rw [ensureFolder_files]

theorem countPath_ensureFolder (v : CVault) (f p : String) :
    countPath (ensureFolder v f) p = countPath v p := by
  unfold countPath
  rw [ensureFolder_files]

theorem countPath_vcreate (v : CVault) (path name : String) (m : Int) (d : FData)
    (p : String) :
    countPath (vcreate v path name m d) p =
      countPath v p + (if path = p then 1 else 0) := by
  unfold countPath vcreate
  rw [List.filter_append]
  by_cases h : path = p <;> simp [h]

theorem countPath_vmodify (v : CVault) (path : String) (m : Int) (d : FData)
    (p : String) :
    countPath (vmodify v path m d) p = countPath v p := by
  unfold countPath vmodify
  rw [List.filter_map, List.length_map]
  congr 1
  apply List.filter_congr
  intro f _
  by_cases h : f.path = path <;> simp [h]

theorem countPath_vdelete_le (v : CVault) (path p : String) :
    countPath (vdelete v path) p ≤ countPath v p := by
  unfold countPath vdelete
  exact ((List.filter_sublist v.files).filter _).length_le

theorem countPath_foldl_vdelete_le (l : List VFile) (v : CVault) (p : String) :
    countPath (l.foldl (fun acc f => vdelete acc f.path) v) p ≤ countPath v p := by
  induction l generalizing v with
  | nil => exact le_refl _
  | cons f l ih =>
    simp only [List.foldl_cons]
    exact le_trans (ih _) (countPath_vdelete_le v f.path p)

theorem countPath_eq_zero (v : CVault) (p : String) (h : hasPath v p = false) :
    countPath v p = 0 := by
  unfold hasPath at h
  unfold countPath
  rw [List.length_eq_zero, List.filter_eq_nil_iff]
  intro f hf
  simp only [List.any_eq_false] at h
  simpa using h f hf

/-- The base artifact path and a day's delta artifact path never collide
(`base.json` versus `delta-<day>.json` under the same folder). -/
theorem basePath_ne_deltaPath (ctx : Ctx) : ¬ basePath ctx = deltaPath ctx := by
  intro h
  have hd : (basePath ctx).data = (deltaPath ctx).data := by rw [h]
  simp only [basePath, deltaPath, deltaName, String.data_append, List.append_assoc] at hd
  have h2 := List.append_cancel_left hd
  simp only [List.cons_append, List.nil_append] at h2
  injection h2 with ha h3
  injection h3 with hb h4
  exact absurd hb (by decide)

theorem countPath_writeFile_ne (v : CVault) (path name : String) (m : Int) (d : FData)
    (p : String) (h : ¬ path = p) :
    countPath (writeFile v path name m d) p = countPath v p := by
  unfold writeFile
  split
  · exact countPath_vmodify v path m d p
  · rw [countPath_vcreate]
    simp [h]

theorem countPath_maybeConsolidateV (ctx : Ctx) (v : CVault) :
    countPath (maybeConsolidateV ctx v) (deltaPath ctx) ≤ countPath v (deltaPath ctx) := by
  unfold maybeConsolidateV
  by_cases hlen : (deltaFilesOf ctx v).length < CONSOLIDATION_THRESHOLD
  · rw [if_pos hlen]
  · rw [if_neg hlen]
    cases hr : rebuildCurrentStateV ctx v with
    | none => exact le_refl _
    | some rebuilt =>
      show countPath ((deltaFilesOf ctx v).foldl (fun acc f => vdelete acc f.path)
          (writeFile v (basePath ctx) "base.json" ctx.nowM
            (FData.baseArt ⟨ctx.now, rebuilt⟩))) (deltaPath ctx) ≤
        countPath v (deltaPath ctx)
      refine le_trans (countPath_foldl_vdelete_le _ _ _) ?_
      rw [countPath_writeFile_ne _ _ _ _ _ _ (basePath_ne_deltaPath ctx)]

theorem countPath_createDeltaV (ctx : Ctx) (v : CVault) (p : String) :
    countPath (createDeltaV ctx v) p ≤ countPath v p + 1 := by
  unfold createDeltaV
  cases hr : rebuildCurrentStateV ctx v with
  | none => exact Nat.le_add_right _ _
  | some prev =>
    show countPath (match createDelta (ctxPatterns ctx) ctx.sha1 ctx.now prev v.files with
        | none => v
        | some d => vcreate v (deltaPath ctx) (deltaName ctx) ctx.nowM (FData.deltaArt d)) p ≤
      countPath v p + 1
    cases hc : createDelta (ctxPatterns ctx) ctx.sha1 ctx.now prev v.files with
    | none => exact Nat.le_add_right _ _
    | some d =>
      show countPath (vcreate v (deltaPath ctx) (deltaName ctx) ctx.nowM
          (FData.deltaArt d)) p ≤ countPath v p + 1
      rw [countPath_vcreate]
      by_cases h : deltaPath ctx = p <;> simp [h]

/-- C1: for every base mapping and ordered delta sequence, the replay
loop of `rebuildCurrentState` returns exactly the mapping the
specification describes — start from a copy of `base.files` and, for each
delta in order, upsert every `added` entry, then upsert every `modified`
entry, then delete every `removed` path. -/
theorem C1_reconstruction_follows_spec (base : StateMap) (ds : List DeltaSnapshot)
    (k : String) :
    lookup (rebuildFrom base ds) k = reconstructSpec (lookup base) ds k := by
  rw [lookup_rebuildFrom, reconstructSpec_eq]

/-- Two stored delta artifacts with identical file mtimes, different
filenames, and conflicting contents for the same path. -/
def tieDeltaA : DeltaFile :=
  ⟨"delta-2024-01-01.json", 5, ⟨"t1", [⟨"p", 1, 1, none⟩], [], []⟩⟩

/-- The second of the two tied delta artifacts. -/
def tieDeltaB : DeltaFile :=
  ⟨"delta-2024-01-02.json", 5, ⟨"t2", [⟨"p", 2, 2, none⟩], [], []⟩⟩

/-- C2 is false as stated: the store contents are the same two delta
files (equal mtimes, distinct filenames) either way, yet reconstruction
depends on the enumeration order — the sort comparator uses only
`stat.mtime` and a stable sort keeps tied elements in input order, so
there is no filename (or any other) secondary key. -/
theorem C2_counterexample :
    List.Perm [tieDeltaA, tieDeltaB] [tieDeltaB, tieDeltaA] ∧
    tieDeltaA.mtime = tieDeltaB.mtime ∧
    ¬ tieDeltaA.name = tieDeltaB.name ∧
    ¬ lookup (rebuildCurrentState ⟨"t0", []⟩ [tieDeltaA, tieDeltaB]) "p" =
        lookup (rebuildCurrentState ⟨"t0", []⟩ [tieDeltaB, tieDeltaA]) "p" :=
  ⟨List.Perm.swap tieDeltaB tieDeltaA [], by decide, by decide, by decide⟩

/-- C2 amended: `rebuildCurrentState` applies the deltas sorted ascending
by delta-file mtime; the sort is stable, so deltas with equal mtimes are
applied in vault enumeration order (there is no filename tiebreak), and
the applied sequence is a permutation of the stored one.  Reconstruction
is therefore deterministic for a fixed base, fixed delta-file contents
and a fixed enumeration order. -/
theorem C2_amended_stable_mtime_order (dfs : List DeltaFile) (base : BaseSnapshot)
    (t : Int) :
    (stableSortBy (fun f => f.mtime) dfs).Pairwise (fun a b => a.mtime ≤ b.mtime) ∧
    (stableSortBy (fun f => f.mtime) dfs).filter (fun f => f.mtime = t) =
      dfs.filter (fun f => f.mtime = t) ∧
    List.Perm (stableSortBy (fun f => f.mtime) dfs) dfs ∧
    rebuildCurrentState base dfs =
      rebuildFrom base.files
        ((stableSortBy (fun f => f.mtime) dfs).map (fun f => f.delta)) :=
  ⟨sorted_stableSortBy _ _, filter_stableSortBy _ _ _, perm_stableSortBy _ _, rfl⟩

/-- C3: below the threshold of 30 accumulated deltas `maybeConsolidate`
leaves the store untouched; at or above it, the new base's files mapping
is exactly the pre-consolidation reconstruction, all deltas are removed,
and reconstructing from the new base with no deltas yields the
pre-consolidation reconstructed state. -/
theorem C3_consolidation_equivalence (base : BaseSnapshot) (dfs : List DeltaFile)
    (now : String) (k : String) :
    (dfs.length < CONSOLIDATION_THRESHOLD → maybeConsolidate base dfs now = (base, dfs)) ∧
    (CONSOLIDATION_THRESHOLD ≤ dfs.length →
      (maybeConsolidate base dfs now).1.files = rebuildCurrentState base dfs ∧
      (maybeConsolidate base dfs now).2 = [] ∧
      lookup (rebuildCurrentState (maybeConsolidate base dfs now).1 []) k =
        lookup (rebuildCurrentState base dfs) k) := by
  constructor
  · intro h
    unfold maybeConsolidate
    rw [if_pos h]
  · intro h
    have hn : ¬ dfs.length < CONSOLIDATION_THRESHOLD := not_lt.mpr h
    unfold maybeConsolidate
    rw [if_neg hn]
    exact ⟨rfl, rfl, rfl⟩

/-- The base used by the consolidation witness. -/
def exBase3 : BaseSnapshot := ⟨"t0", [("q", ⟨"q", 1, 1, none⟩)]⟩

/-- Thirty accumulated delta files for the consolidation witness. -/
def exDfs3 : List DeltaFile :=
  List.replicate 30 ⟨"delta-x.json", 1, ⟨"t", [⟨"r", 2, 2, none⟩], [], ["q"]⟩⟩

theorem C3_consolidation_witness :
    maybeConsolidate exBase3 [] "t1" = (exBase3, []) ∧
    (maybeConsolidate exBase3 exDfs3 "t1").1.files = rebuildCurrentState exBase3 exDfs3 ∧
    (maybeConsolidate exBase3 exDfs3 "t1").2 = [] :=
  ⟨(C3_consolidation_equivalence exBase3 [] "t1" "q").1 (by decide),
    ((C3_consolidation_equivalence exBase3 exDfs3 "t1" "q").2 (by decide)).1,
    ((C3_consolidation_equivalence exBase3 exDfs3 "t1" "q").2 (by decide)).2.1⟩

/-- C4: replay over a consolidated result is idempotent — applying the
same ordered delta sequence again on top of its own reconstruction
changes nothing; hence after an interrupted consolidation (new base
written, stale delta files not yet deleted) the next rebuild of the new
base plus the stale deltas equals the pre-interruption reconstruction;
and in the consolidation's operation trace the new-base write strictly
precedes every delta deletion. -/
theorem C4_replay_idempotent (base : BaseSnapshot) (dfs : List DeltaFile)
    (ds : List DeltaSnapshot) (s : StateMap) (now : String) (k : String) (p : String) :
    (lookup (rebuildFrom (rebuildFrom s ds) ds) k = lookup (rebuildFrom s ds) k) ∧
    (lookup (rebuildCurrentState ⟨now, rebuildCurrentState base dfs⟩ dfs) k =
      lookup (rebuildCurrentState base dfs) k) ∧
    (StoreOp.deleteFile p ∈ maybeConsolidateOps base dfs now →
      ∃ rest, maybeConsolidateOps base dfs now =
          StoreOp.writeBase ⟨now, rebuildCurrentState base dfs⟩ :: rest ∧
        StoreOp.deleteFile p ∈ rest) := by
  refine ⟨rebuildFrom_idem s ds k, ?_, ?_⟩
  · show lookup (rebuildFrom (rebuildFrom base.files
        ((stableSortBy (fun f => f.mtime) dfs).map (fun f => f.delta)))
        ((stableSortBy (fun f => f.mtime) dfs).map (fun f => f.delta))) k =
      lookup (rebuildFrom base.files
        ((stableSortBy (fun f => f.mtime) dfs).map (fun f => f.delta))) k
    exact rebuildFrom_idem _ _ _
  intro hmem
  unfold maybeConsolidateOps at hmem ⊢
  by_cases hlen : dfs.length < CONSOLIDATION_THRESHOLD
  · rw [if_pos hlen] at hmem
    exact absurd hmem (List.not_mem_nil _)
  · rw [if_neg hlen] at hmem ⊢
    refine ⟨dfs.map (fun f => StoreOp.deleteFile f.name), rfl, ?_⟩
    rcases List.mem_cons.mp hmem with h | h
    · exact absurd h (by simp)
    · exact h

/-- The base used by the consolidation-trace witness. -/
def exBase4 : BaseSnapshot := ⟨"t0", []⟩

/-- Thirty accumulated delta files for the consolidation-trace witness. -/
def exDfs4 : List DeltaFile :=
  List.replicate 30 ⟨"delta-y.json", 1, ⟨"t", [⟨"p", 1, 1, none⟩], [], []⟩⟩

theorem C4_replay_idempotent_witness :
    (lookup (rebuildFrom (rebuildFrom [] []) []) "p" = lookup (rebuildFrom [] []) "p") ∧
    (∃ rest, maybeConsolidateOps exBase4 exDfs4 "t1" =
        StoreOp.writeBase ⟨"t1", rebuildCurrentState exBase4 exDfs4⟩ :: rest ∧
      StoreOp.deleteFile "delta-y.json" ∈ rest) :=
  ⟨(C4_replay_idempotent exBase4 exDfs4 [] [] "t1" "p" "delta-y.json").1,
    (C4_replay_idempotent exBase4 exDfs4 [] [] "t1" "p" "delta-y.json").2.2 (by decide)⟩

/-- A markdown file whose raw content ends in a CRLF. -/
def exCrlfFile : VFile := ⟨"n.md", "n.md", "md", 1, 3, some (FData.text "a\r\n")⟩

/-- C5 is false as stated over the whole repository: in the
`src/src/main.ts` variant the digest input is the normalized content, not
the raw content as read — for the raw content `"a\r\n"` that variant
hashes `"a"` (CRLF collapsed to LF, then trailing whitespace trimmed).
The digest and the NFC step are instantiated with the identity function;
real NFC is the identity on this ASCII-only input, and an identity digest
exposes the digest input directly. -/
theorem C5_counterexample :
    normalizeContent id "a\r\n" = "a" ∧
    (buildFileStateMain id id exCrlfFile).hash = some "a" ∧
    ¬ (buildFileStateMain id id exCrlfFile).hash = some (id "a\r\n") :=
  ⟨by decide, by decide, by decide⟩

/-- C5 amended: in the final base/delta iteration
(`src/unnamed/part_001`), for every file with a hashable extension whose
read succeeds, the recorded hash is the digest of the raw content exactly
as read, with no normalization; in the earlier `src/src/main.ts` variant
the recorded hash is instead the digest of the normalized content
(CRLF → LF, BOM stripped, Unicode NFC, trailing whitespace trimmed).
The two non-emptiness hypotheses mirror the JS truthiness check on the
digest string (a real SHA-1 hex digest is never empty). -/
theorem C5_amended_raw_hash (sha1 nfc : String → String) (f : VFile) (c : String)
    (hext : f.extension ∈ TEXT_EXTENSIONS)
    (hread : f.read = some (FData.text c))
    (h1 : ¬ sha1 c = "")
    (h2 : ¬ sha1 (normalizeContent nfc c) = "") :
    (buildFileState sha1 f).hash = some (sha1 c) ∧
    (buildFileStateMain sha1 nfc f).hash = some (sha1 (normalizeContent nfc c)) := by
  unfold buildFileState buildFileStateMain hashContent hashContentMain
  rw [hread]
  simp [hext, h1, h2]

theorem C5_amended_raw_hash_witness :
    (buildFileState id exCrlfFile).hash = some "a\r\n" ∧
    (buildFileStateMain id id exCrlfFile).hash = some "a" :=
  C5_amended_raw_hash id id exCrlfFile "a\r\n" (by decide) (by decide)
    (by decide) (by decide)

theorem lookup_isSome_upsert (m : StateMap) (k k' : String) (v : FileState)
    (h : (lookup m k').isSome = true) : (lookup (upsert m k v) k').isSome = true := by
  rw [lookup_upsert]
  by_cases hk : k' = k <;> simp [hk, h]

theorem lookup_isSome_baseFold (patterns : List (List Tok)) (sha1 : String → String)
    (files : List VFile) (acc : StateMap) (k : String)
    (h : (lookup acc k).isSome = true) :
    (lookup (files.foldl
      (fun acc f =>
        if isIgnored patterns f.path then acc
        else upsert acc f.path (buildFileState sha1 f)) acc) k).isSome = true := by
  induction files generalizing acc with
  | nil => exact h
  | cons g rest ih =>
    simp only [List.foldl_cons]
    apply ih
    by_cases hg : isIgnored patterns g.path = true
    · simpa [hg] using h
    · simp only [Bool.not_eq_true] at hg
      simp only [hg, Bool.false_eq_true, if_false]
      exact lookup_isSome_upsert _ _ _ _ h

theorem baseFold_mem_isSome (patterns : List (List Tok)) (sha1 : String → String)
    (files : List VFile) (acc : StateMap) (f : VFile)
    (hf : f ∈ files) (hig : isIgnored patterns f.path = false) :
    (lookup (files.foldl
      (fun acc g =>
        if isIgnored patterns g.path then acc
        else upsert acc g.path (buildFileState sha1 g)) acc) f.path).isSome = true := by
  induction files generalizing acc with
  | nil => cases hf
  | cons g rest ih =>
    simp only [List.foldl_cons]
    rcases List.mem_cons.mp hf with rfl | hmem
    · simp only [hig, Bool.false_eq_true, if_false]
      apply lookup_isSome_baseFold
      rw [lookup_upsert]
      simp
    · exact ih _ hmem

/-- C9: a file whose extension is outside the hashable set
{md, txt, csv, json, js, ts, css, html, yaml, yml} never gets a hash; a
file with a hashable extension and a successful read gets the digest of
its content; a failed read still yields a complete `FileState` with the
hash omitted; and the scan goes on — every non-ignored file, including
one whose read failed, ends up keyed in the created base. -/
theorem C9_hash_conditionality (sha1 : String → String) (f : VFile) (c : String)
    (patterns : List (List Tok)) (now : String) (files : List VFile) :
    (f.extension ∉ TEXT_EXTENSIONS → (buildFileState sha1 f).hash = none) ∧
    (f.extension ∈ TEXT_EXTENSIONS → f.read = some (FData.text c) → ¬ sha1 c = "" →
      (buildFileState sha1 f).hash = some (sha1 c)) ∧
    (f.read = none → buildFileState sha1 f = ⟨f.path, f.mtime, f.size, none⟩) ∧
    (f ∈ files → isIgnored patterns f.path = false →
      (lookup (createBase patterns sha1 now files).files f.path).isSome = true) := by
  refine ⟨?_, ?_, ?_, ?_⟩
  · intro hext
    unfold buildFileState
    simp [hext]
  · intro hext hread h1
    unfold buildFileState hashContent
    rw [hread]
    simp [hext, h1]
  · intro hread
    unfold buildFileState
    rw [hread]
    by_cases hext : f.extension ∈ TEXT_EXTENSIONS <;> simp [hext]
  · intro hmem hig
    unfold createBase
    exact baseFold_mem_isSome patterns sha1 files [] f hmem hig

/-- A text file whose read fails. -/
def exFailFile : VFile := ⟨"f.txt", "f.txt", "txt", 7, 3, none⟩

/-- A non-hashable binary file. -/
def exPngFile : VFile := ⟨"i.png", "i.png", "png", 8, 9, some (FData.text "x")⟩

/-- A hashable file whose read succeeds. -/
def exMdFile : VFile := ⟨"a.md", "a.md", "md", 1, 2, some (FData.text "hi")⟩

theorem C9_hash_conditionality_witness :
    ((buildFileState id exPngFile).hash = none) ∧
    ((buildFileState id exMdFile).hash = some "hi") ∧
    (buildFileState id exFailFile = ⟨"f.txt", 7, 3, none⟩) ∧
    ((lookup (createBase [] id "t" [exFailFile, exPngFile]).files "f.txt").isSome = true) :=
  ⟨(C9_hash_conditionality id exPngFile "x" [] "t" []).1 (by decide),
    (C9_hash_conditionality id exMdFile "hi" [] "t" []).2.1 (by decide) (by decide)
      (by decide),
    (C9_hash_conditionality id exFailFile "" [] "t" []).2.2.1 (by decide),
    (C9_hash_conditionality id exFailFile "" [] "t" [exFailFile, exPngFile]).2.2.2
      (by decide) (by decide)⟩

theorem mem_upsertLive (m : LiveMap) (k : String) (v : VFile) (q : String × VFile)
    (h : q ∈ upsertLive m k v) : q = (k, v) ∨ q ∈ m := by
  induction m with
  | nil => simpa [upsertLive] using h
  | cons p m ih =>
    by_cases hp : p.1 = k
    · simp only [upsertLive, hp, if_pos] at h
      rcases List.mem_cons.mp h with rfl | h2
      · exact Or.inl rfl
      · exact Or.inr (List.mem_cons.mpr (Or.inr h2))
    · simp only [upsertLive, hp, if_neg, if_false] at h
      rcases List.mem_cons.mp h with rfl | h2
      · exact Or.inr (List.mem_cons.mpr (Or.inl rfl))
      · rcases ih h2 with h3 | h3
        · exact Or.inl h3
        · exact Or.inr (List.mem_cons.mpr (Or.inr h3))

theorem upsertLive_pairwise (m : LiveMap) (k : String) (v : VFile)
    (h : m.Pairwise (fun a b => ¬ a.1 = b.1)) :
    (upsertLive m k v).Pairwise (fun a b => ¬ a.1 = b.1) := by
  induction m with
  | nil => simp [upsertLive]
  | cons p m ih =>
    rcases List.pairwise_cons.mp h with ⟨hp1, hm⟩
    by_cases hp : p.1 = k
    · have : upsertLive (p :: m) k v = (k, v) :: m := by simp [upsertLive, hp]
      rw [this]
      refine List.pairwise_cons.mpr ⟨?_, hm⟩
      intro q hq
      have h2 := hp1 q hq
      rw [hp] at h2
      exact h2
    · have : upsertLive (p :: m) k v = p :: upsertLive m k v := by simp [upsertLive, hp]
      rw [this]
      refine List.pairwise_cons.mpr ⟨?_, ih hm⟩
      intro q hq
      rcases mem_upsertLive m k v q hq with rfl | hq2
      · simpa using hp
      · exact hp1 q hq2

theorem currentMapFold_pairwise (patterns : List (List Tok)) (files : List VFile)
    (acc : LiveMap) (h : acc.Pairwise (fun a b => ¬ a.1 = b.1)) :
    (files.foldl
      (fun m f => if isIgnored patterns f.path then m else upsertLive m f.path f)
      acc).Pairwise (fun a b => ¬ a.1 = b.1) := by
  induction files generalizing acc with
  | nil => exact h
  | cons f fs ih =>
    simp only [List.foldl_cons]
    apply ih
    by_cases hf : isIgnored patterns f.path = true
    · simpa [hf] using h
    · simp only [Bool.not_eq_true] at hf
      simp only [hf, Bool.false_eq_true, if_false]
      exact upsertLive_pairwise _ _ _ h

theorem currentMapFold_entry (patterns : List (List Tok)) (files : List VFile)
    (acc : LiveMap) (h : ∀ q ∈ acc, q.1 = q.2.path) :
    ∀ q ∈ files.foldl
      (fun m f => if isIgnored patterns f.path then m else upsertLive m f.path f) acc,
      q.1 = q.2.path := by
  induction files generalizing acc with
  | nil => exact h
  | cons f fs ih =>
    simp only [List.foldl_cons]
    apply ih
    intro q hq
    by_cases hf : isIgnored patterns f.path = true
    · rw [if_pos (by simpa using hf)] at hq
      exact h q hq
    · simp only [Bool.not_eq_true] at hf
      rw [show (if isIgnored patterns f.path then acc else upsertLive acc f.path f) =
        upsertLive acc f.path f from by simp [hf]] at hq
      rcases mem_upsertLive acc f.path f q hq with rfl | hq2
      · rfl
      · exact h q hq2

theorem mem_lookupLive (m : LiveMap) (hnd : m.Pairwise (fun a b => ¬ a.1 = b.1))
    (q : String × VFile) (hq : q ∈ m) : lookupLive m q.1 = some q.2 := by
  induction m with
  | nil => cases hq
  | cons p m ih =>
    rcases List.pairwise_cons.mp hnd with ⟨hp1, hm⟩
    rcases List.mem_cons.mp hq with rfl | hq2
    · simp [lookupLive]
    · have h2 : ¬ p.1 = q.1 := hp1 q hq2
      simp [lookupLive, h2, ih hm hq2]

theorem currentMap_lookup_self (patterns : List (List Tok)) (files : List VFile)
    (q : String × VFile) (hq : q ∈ currentMapOf patterns files) :
    lookupLive (currentMapOf patterns files) q.2.path = some q.2 := by
  have hnd := currentMapFold_pairwise patterns files [] (by simp)
  have hent := currentMapFold_entry patterns files [] (by simp) q hq
  rw [← hent]
  exact mem_lookupLive _ hnd q hq

theorem lookup_isSome_of_mem_keys (m : StateMap) (k : String)
    (h : k ∈ m.map (fun p => p.1)) : (lookup m k).isSome = true := by
  induction m with
  | nil => simp at h
  | cons p m ih =>
    by_cases hp : p.1 = k
    · simp [lookup, hp]
    · simp only [List.map_cons, List.mem_cons] at h
      rcases h with h | h
      · exact absurd h.symm hp
      · simp [lookup, hp, ih h]

/-- C8: when, after ignore filtering, the live path set coincides with
the previous reconstructed state's path set and every live file's mtime
equals the recorded mtime, `createDelta` returns the no-op signal, and at
the vault level a no-op delta persists nothing — the store is unchanged. -/
theorem C8_noop_suppression (patterns : List (List Tok)) (sha1 : String → String)
    (now : String) (prev : StateMap) (files : List VFile)
    (hsets : ∀ k, (lookup prev k).isSome =
      (lookupLive (currentMapOf patterns files) k).isSome)
    (hmt : ∀ (k : String) (pfs : FileState) (f : VFile),
      lookup prev k = some pfs →
      lookupLive (currentMapOf patterns files) k = some f →
      pfs.mtime = f.mtime) :
    createDelta patterns sha1 now prev files = none ∧
    (∀ (ctx : Ctx) (v : CVault) (prevState : StateMap),
      rebuildCurrentStateV ctx v = some prevState →
      createDelta (ctxPatterns ctx) ctx.sha1 ctx.now prevState v.files = none →
      createDeltaV ctx v = v) := by
  constructor
  · have hrem : removedOf patterns prev files = [] := by
      unfold removedOf
      rw [List.filter_eq_nil_iff]
      intro k hk
      obtain ⟨f, hf⟩ := Option.isSome_iff_exists.mp
        ((hsets k) ▸ lookup_isSome_of_mem_keys prev k hk)
      simp [hf]
    have hadd : addedOf patterns sha1 prev files = [] := by
      unfold addedOf
      rw [List.filterMap_eq_nil_iff]
      intro q hq
      have hl := currentMap_lookup_self patterns files q hq
      have h1 : (lookup prev q.2.path).isSome = true := by
        rw [hsets q.2.path, hl]
        rfl
      obtain ⟨pfs, hpfs⟩ := Option.isSome_iff_exists.mp h1
      simp [hpfs]
    have hmod : modifiedOf patterns sha1 prev files = [] := by
      unfold modifiedOf
      rw [List.filterMap_eq_nil_iff]
      intro q hq
      have hl := currentMap_lookup_self patterns files q hq
      have h1 : (lookup prev q.2.path).isSome = true := by
        rw [hsets q.2.path, hl]
        rfl
      obtain ⟨pfs, hpfs⟩ := Option.isSome_iff_exists.mp h1
      have heq := hmt q.2.path pfs q.2 hpfs hl
      simp [hpfs, heq]
    unfold createDelta
    simp [hadd, hmod, hrem]
  · intro ctx v prevState hreb hnone
    unfold createDeltaV
    rw [hreb]
    show (match createDelta (ctxPatterns ctx) ctx.sha1 ctx.now prevState v.files with
      | none => v
      | some d => vcreate v (deltaPath ctx) (deltaName ctx) ctx.nowM (FData.deltaArt d)) = v
    rw [hnone]

/-- An unchanged live markdown file (same mtime as recorded). -/
def exNoopFile : VFile := ⟨"a.md", "a.md", "md", 100, 5, none⟩

theorem C8_noop_suppression_witness :
    createDelta [] id "t" [("a.md", ⟨"a.md", 100, 5, none⟩)] [exNoopFile] = none := by
  refine (C8_noop_suppression [] id "t" [("a.md", ⟨"a.md", 100, 5, none⟩)] [exNoopFile]
    ?_ ?_).1
  · intro k
    show (lookup [("a.md", ⟨"a.md", 100, 5, none⟩)] k).isSome =
      (lookupLive [("a.md", exNoopFile)] k).isSome
    by_cases h : ("a.md" : String) = k <;> simp [lookup, lookupLive, h]
  · intro k pfs f hp hf
    have hp2 : (if ("a.md" : String) = k
        then some (⟨"a.md", 100, 5, none⟩ : FileState) else none) = some pfs := hp
    have hf2 : (if ("a.md" : String) = k then some exNoopFile else none) = some f := hf
    by_cases h : ("a.md" : String) = k
    · rw [if_pos h] at hp2 hf2
      cases hp2
      cases hf2
      rfl
    · rw [if_neg h] at hp2
      cases hp2

theorem mem_upsert (m : StateMap) (k : String) (v : FileState) (q : String × FileState)
    (h : q ∈ upsert m k v) : q = (k, v) ∨ q ∈ m := by
  induction m with
  | nil => simpa [upsert] using h
  | cons p m ih =>
    by_cases hp : p.1 = k
    · simp only [upsert, hp, if_pos] at h
      rcases List.mem_cons.mp h with rfl | h2
      · exact Or.inl rfl
      · exact Or.inr (List.mem_cons.mpr (Or.inr h2))
    · simp only [upsert, hp, if_neg, if_false] at h
      rcases List.mem_cons.mp h with rfl | h2
      · exact Or.inr (List.mem_cons.mpr (Or.inl rfl))
      · rcases ih h2 with h3 | h3
        · exact Or.inl h3
        · exact Or.inr (List.mem_cons.mpr (Or.inr h3))

theorem baseFold_keys_not_ignored (patterns : List (List Tok)) (sha1 : String → String)
    (files : List VFile) (acc : StateMap)
    (h : ∀ q ∈ acc, isIgnored patterns q.1 = false) :
    ∀ q ∈ files.foldl
      (fun acc f =>
        if isIgnored patterns f.path then acc
        else upsert acc f.path (buildFileState sha1 f)) acc,
      isIgnored patterns q.1 = false := by
  induction files generalizing acc with
  | nil => exact h
  | cons f fs ih =>
    simp only [List.foldl_cons]
    apply ih
    intro q hq
    by_cases hf : isIgnored patterns f.path = true
    · rw [if_pos (by simpa using hf)] at hq
      exact h q hq
    · simp only [Bool.not_eq_true] at hf
      rw [show (if isIgnored patterns f.path then acc
          else upsert acc f.path (buildFileState sha1 f)) =
        upsert acc f.path (buildFileState sha1 f) from by simp [hf]] at hq
      rcases mem_upsert acc f.path (buildFileState sha1 f) q hq with rfl | hq2
      · exact hf
      · exact h q hq2

theorem currentMapFold_notIgnored (patterns : List (List Tok)) (files : List VFile)
    (acc : LiveMap) (h : ∀ q ∈ acc, isIgnored patterns q.1 = false) :
    ∀ q ∈ files.foldl
      (fun m f => if isIgnored patterns f.path then m else upsertLive m f.path f) acc,
      isIgnored patterns q.1 = false := by
  induction files generalizing acc with
  | nil => exact h
  | cons f fs ih =>
    simp only [List.foldl_cons]
    apply ih
    intro q hq
    by_cases hf : isIgnored patterns f.path = true
    · rw [if_pos (by simpa using hf)] at hq
      exact h q hq
    · simp only [Bool.not_eq_true] at hf
      rw [show (if isIgnored patterns f.path then acc else upsertLive acc f.path f) =
        upsertLive acc f.path f from by simp [hf]] at hq
      rcases mem_upsertLive acc f.path f q hq with rfl | hq2
      · exact hf
      · exact h q hq2

theorem addedOf_paths (patterns : List (List Tok)) (sha1 : String → String)
    (prev : StateMap) (files : List VFile) :
    ∀ fs ∈ addedOf patterns sha1 prev files, isIgnored patterns fs.path = false := by
  intro fs hfs
  unfold addedOf at hfs
  obtain ⟨q, hq, hfq⟩ := List.mem_filterMap.mp hfs
  by_cases hc : (lookup prev q.2.path).isNone = true
  · rw [if_pos hc] at hfq
    injection hfq with hfq
    have hpath : fs.path = q.2.path := by rw [← hfq]; rfl
    rw [hpath, ← currentMapFold_entry patterns files [] (by simp) q hq]
    exact currentMapFold_notIgnored patterns files [] (by simp) q hq
  · rw [if_neg hc] at hfq
    cases hfq

theorem modifiedOf_paths (patterns : List (List Tok)) (sha1 : String → String)
    (prev : StateMap) (files : List VFile) :
    ∀ fs ∈ modifiedOf patterns sha1 prev files, isIgnored patterns fs.path = false := by
  intro fs hfs
  unfold modifiedOf at hfs
  obtain ⟨q, hq, hfq⟩ := List.mem_filterMap.mp hfs
  cases hl : lookup prev q.2.path with
  | none => rw [hl] at hfq; cases hfq
  | some prevFs =>
    rw [hl] at hfq
    have hfq2 : (if ¬ prevFs.mtime = q.2.mtime then some (buildFileState sha1 q.2)
        else none) = some fs := hfq
    by_cases hc : ¬ prevFs.mtime = q.2.mtime
    · rw [if_pos hc] at hfq2
      injection hfq2 with hfq2
      have hpath : fs.path = q.2.path := by rw [← hfq2]; rfl
      rw [hpath, ← currentMapFold_entry patterns files [] (by simp) q hq]
      exact currentMapFold_notIgnored patterns files [] (by simp) q hq
    · rw [if_neg hc] at hfq2
      cases hfq2

theorem removedOf_mem_keys (patterns : List (List Tok)) (prev : StateMap)
    (files : List VFile) :
    ∀ r ∈ removedOf patterns prev files, r ∈ prev.map (fun p => p.1) := by
  intro r hr
  unfold removedOf at hr
  exact List.mem_of_mem_filter hr

theorem matchesFrom_lit_append (l rest : List Char) :
    matchesFrom (l.map Tok.lit) (l ++ rest) = true := by
  induction l with
  | nil => rfl
  | cons c l ih => simp [matchesFrom, ih]

/-- C6: no path matching a compiled ignore pattern ever appears in a
created base or in the added/modified/removed collections of a created
delta (for the delta, provided the previous state is itself clean, which
base creation establishes and delta creation preserves); and every path
with the configured snapshot folder as a literal prefix matches the
always-present implicit folder pattern, hence is ignored. -/
theorem C6_ignore_enforcement (settings : VaultStateSettings) (sha1 : String → String)
    (now : String) (prev : StateMap) (files : List VFile) (path : String)
    (rest : List Char) :
    (∀ q ∈ (createBase (compileIgnorePatterns settings) sha1 now files).files,
      isIgnored (compileIgnorePatterns settings) q.1 = false) ∧
    ((∀ q ∈ prev, isIgnored (compileIgnorePatterns settings) q.1 = false) →
      ∀ d, createDelta (compileIgnorePatterns settings) sha1 now prev files = some d →
        (∀ fs ∈ d.added, isIgnored (compileIgnorePatterns settings) fs.path = false) ∧
        (∀ fs ∈ d.modified, isIgnored (compileIgnorePatterns settings) fs.path = false) ∧
        (∀ r ∈ d.removed, isIgnored (compileIgnorePatterns settings) r = false)) ∧
    (¬ settings.snapshotFolder = "" →
      path.data = settings.snapshotFolder.data ++ rest →
      isIgnored (compileIgnorePatterns settings) path = true) := by
  refine ⟨?_, ?_, ?_⟩
  · intro q hq
    exact baseFold_keys_not_ignored (compileIgnorePatterns settings) sha1 files []
      (by simp) q hq
  · intro hclean d hd
    unfold createDelta at hd
    by_cases hc : (addedOf (compileIgnorePatterns settings) sha1 prev files = [] ∧
        modifiedOf (compileIgnorePatterns settings) sha1 prev files = [] ∧
        removedOf (compileIgnorePatterns settings) prev files = [])
    · rw [if_pos hc] at hd
      cases hd
    · rw [if_neg hc] at hd
      injection hd with hd
      rw [← hd]
      refine ⟨addedOf_paths _ sha1 prev files,
        modifiedOf_paths _ sha1 prev files, ?_⟩
      intro r hr
      have hkey := removedOf_mem_keys (compileIgnorePatterns settings) prev files r hr
      obtain ⟨q, hq, hq2⟩ := List.mem_map.mp hkey
      rw [← hq2]
      exact hclean q hq
  · intro hne hpre
    unfold isIgnored compileIgnorePatterns
    rw [if_pos hne]
    simp only [List.any_eq_true]
    refine ⟨folderPattern settings.snapshotFolder, ?_, ?_⟩
    · simp [List.mem_append]
    · unfold folderPattern
      rw [hpre]
      exact matchesFrom_lit_append settings.snapshotFolder.data rest

theorem C6_ignore_enforcement_witness :
    isIgnored (compileIgnorePatterns ⟨"snap", ""⟩) "snap/base.json" = true ∧
    isIgnored (compileIgnorePatterns ⟨"snap", ""⟩) "gone.md" = false :=
  ⟨(C6_ignore_enforcement ⟨"snap", ""⟩ id "t" [] [] "snap/base.json"
      "/base.json".data).2.2 (by decide) (by decide),
    ((C6_ignore_enforcement ⟨"snap", ""⟩ id "t" [("gone.md", ⟨"gone.md", 1, 1, none⟩)]
      [] "x" []).2.1 (by decide) ⟨"t", [], [], ["gone.md"]⟩ (by decide)).2.2
      "gone.md" (by decide)⟩

/-- C10: pattern compilation discards comma-separated segments that trim
to nothing (`filter(Boolean)` after `trim`), so no compiled user pattern
is the empty token list — the pattern that matches every path — and a
configuration of only empty/whitespace segments compiles to no user
patterns at all. -/
theorem C10_empty_segments_discarded (ignoredFolders : String) (path : String) :
    (∀ pat ∈ userPatterns ignoredFolders, ¬ pat = []) ∧
    (matchesFrom [] path.data = true) ∧
    ((∀ seg ∈ splitOnComma ignoredFolders.data, trimChars seg = []) →
      userPatterns ignoredFolders = []) := by
  refine ⟨?_, rfl, ?_⟩
  · intro pat hp
    unfold userPatterns at hp
    obtain ⟨seg, hseg, hps⟩ := List.mem_map.mp hp
    have hne := of_decide_eq_true (List.mem_filter.mp hseg).2
    rw [← hps]
    unfold userPattern
    intro hmap
    exact hne (List.map_eq_nil_iff.mp hmap)
  · intro hall
    unfold userPatterns
    have hfil : (((splitOnComma ignoredFolders.data).map trimChars).filter
        (fun seg => ¬ seg = [])) = [] := by
      rw [List.filter_eq_nil_iff]
      intro x hx
      obtain ⟨seg, hseg, hxs⟩ := List.mem_map.mp hx
      rw [← hxs, hall seg hseg]
      simp
    rw [hfil]
    rfl

theorem C10_empty_segments_witness :
    (¬ userPattern "a".data = []) ∧
    matchesFrom [] "x".data = true ∧
    userPatterns " , ," = [] :=
  ⟨(C10_empty_segments_discarded ",a, ,b," "x").1 (userPattern "a".data) (by decide),
    (C10_empty_segments_discarded ",a, ,b," "x").2.1,
    (C10_empty_segments_discarded " , ," "x").2.2 (by decide)⟩

/-- C7: when today's delta artifact already exists, a controller run
leaves the stored files untouched (idempotent same-day skip); and a run
never takes the number of artifacts at today's delta path above one, so
the store never holds two delta artifacts for the same period. -/
theorem C7_one_delta_per_day (ctx : Ctx) (v : CVault) :
    (hasPath v (deltaPath ctx) = true → (runDeltaIfNeeded ctx v).files = v.files) ∧
    (countPath v (deltaPath ctx) ≤ 1 →
      countPath (runDeltaIfNeeded ctx v) (deltaPath ctx) ≤ 1) := by
  constructor
  · intro h
    unfold runDeltaIfNeeded
    by_cases hf : ctx.folder = ""
    · rw [if_pos hf]
    · rw [if_neg hf]
      have h1 : hasPath (ensureFolder v ctx.folder) (deltaPath ctx) = true := by
        rw [hasPath_ensureFolder]
        exact h
      rw [if_pos h1]
      exact ensureFolder_files v ctx.folder
  · intro h
    unfold runDeltaIfNeeded
    by_cases hf : ctx.folder = ""
    · rw [if_pos hf]
      exact h
    · rw [if_neg hf]
      by_cases hd : hasPath (ensureFolder v ctx.folder) (deltaPath ctx) = true
      · rw [if_pos hd, countPath_ensureFolder]
        exact h
      · rw [if_neg hd]
        have hzero : countPath (ensureFolder v ctx.folder) (deltaPath ctx) = 0 := by
          apply countPath_eq_zero
          simpa using hd
        by_cases hb : ¬ hasPath (ensureFolder v ctx.folder) (basePath ctx) = true
        · rw [if_pos hb]
          unfold createBaseV
          rw [countPath_writeFile_ne _ _ _ _ _ _ (basePath_ne_deltaPath ctx)]
          omega
        · rw [if_neg hb]
          refine le_trans (countPath_maybeConsolidateV ctx _) ?_
          refine le_trans (countPath_createDeltaV ctx _ (deltaPath ctx)) ?_
          omega

/-- The context of the same-day-rerun witness. -/
def exCtx7 : Ctx := ⟨⟨"snap", ""⟩, "2024-01-01", "t", 5, id⟩

/-- A vault that already holds today's delta artifact. -/
def exVault7 : CVault :=
  ⟨[⟨"snap/delta-2024-01-01.json", "delta-2024-01-01.json", "json", 1, 0,
    some (FData.deltaArt ⟨"t", [], [], []⟩)⟩], ["snap"]⟩

theorem C7_one_delta_per_day_witness :
    (runDeltaIfNeeded exCtx7 exVault7).files = exVault7.files ∧
    countPath (runDeltaIfNeeded exCtx7 exVault7) (deltaPath exCtx7) ≤ 1 :=
  ⟨(C7_one_delta_per_day exCtx7 exVault7).1 (by decide),
    (C7_one_delta_per_day exCtx7 exVault7).2 (by decide)⟩
